import Mathlib

/-!
Verification of the discrete-time filtering core of the dsp.rs repository
(src/src/filter/mod.rs, fir.rs, iir.rs).

The Rust code is shallowly embedded here.  Machine `f32` arithmetic is
idealized as arithmetic in an arbitrary field (instantiated at `ℚ` for
concrete witnesses and mapped into `ℝ` where the analytic step response
is involved).  The fixed-capacity `ArrayDeque<_, Wrapping>` sample
histories are embedded as lists whose length is governed by the stored
capacity `n` (the compile-time size parameter `N` of the Rust types):
`pop_back` is `dropLast`, `push_front` is `cons`, and the wrapping
capacity bound is the trailing `take n`.  Rust assertion failures
(panics) and hypothetical recoverable error values are distinguished by
the `Outcome` type, so that claims about the error-reporting mechanism
are statable.
-/

namespace Dsp

/-- Outcome of a Rust call that can fail.  `ok` is normal return, `err`
is a recoverable error value (what a `Result::Err` would be), and
`panic` is an assertion failure, i.e. unrecoverable termination of the
program.  The source code under verification only ever produces `ok`
or `panic`; `err` exists so that claims about recoverable errors can be
stated and refuted. -/
inductive Outcome (ε : Type) (α : Type) where
  | ok : α → Outcome ε α
  | err : ε → Outcome ε α
  | panic : Outcome ε α
deriving DecidableEq

/-- True exactly on the `err` outcome. -/
def Outcome.isErr {ε α : Type} : Outcome ε α → Bool
  | .err _ => true
  | _ => false

/-- True exactly on the `panic` outcome. -/
def Outcome.isPanic {ε α : Type} : Outcome ε α → Bool
  | .panic => true
  | _ => false

/-- True exactly on the `ok` outcome. -/
def Outcome.isOk {ε α : Type} : Outcome ε α → Bool
  | .ok _ => true
  | _ => false

/-- Construction-time configuration error (spec section 7). -/
inductive ConfigError where
  | badConfig
deriving DecidableEq

/-- Call-time usage error (spec section 7). -/
inductive UsageError where
  | lengthMismatch
deriving DecidableEq

/-- The FIR filter state of `src/src/filter/fir.rs`: capacity `n` (the
compile-time parameter `N`), input history `x` (newest first) and
feed-forward coefficients `b`. -/
structure FIRFilter (α : Type) where
  n : ℕ
  x : List α
  b : List α
deriving DecidableEq

/-- The IIR filter state of `src/src/filter/iir.rs`: capacity `n`,
input history `x`, output history `y` (both newest first), coefficients
`b`, and the internally stored feedback coefficients `a` (negated from
index 1 on at construction). -/
structure IIRFilter (α : Type) where
  n : ℕ
  x : List α
  y : List α
  b : List α
  a : List α
deriving DecidableEq

variable {α : Type} [Field α]

/-- The coefficient transformation of `IIRFilter::new`: keep `a[0]`,
negate every later element (the loop `for i in 1..a_arr.len()`). -/
def negTail [Neg β] : List β → List β
  | [] => []
  | a0 :: rest => a0 :: rest.map (fun v => -v)

/-- `FIRFilter::new`: builds the zero-filled input history of capacity
`n` and checks `assert_eq!(b.len(), x.capacity())`; an assertion
failure is a panic. -/
def FIRFilter.new (n : ℕ) (b : List α) : Outcome ConfigError (FIRFilter α) :=
  if b.length = n then .ok ⟨n, List.replicate n 0, b⟩ else .panic

/-- `IIRFilter::new`: checks `assert_ne!(a[0], 0.0)` (an empty `a`
panics already on the index `a[0]`), then
`assert_eq!(b.len(), x.capacity())` and
`assert_eq!(a.len(), y.capacity())`, builds zero-filled histories and
stores `b` unchanged and `a` with the tail negated.  Every failed check
is an assertion failure, i.e. a panic. -/
def IIRFilter.new [DecidableEq α] (n : ℕ) (b a : List α) :
    Outcome ConfigError (IIRFilter α) :=
  if a.length = 0 then .panic
  else if a.getD 0 0 = 0 then .panic
  else if b.length = n then
    if a.length = n then
      .ok ⟨n, List.replicate n 0, List.replicate n 0, b, negTail a⟩
    else .panic
  else .panic

/-- `FIRFilter::process_one`: shift the new sample into the history
(`pop_back` then wrapping `push_front`) and return the dot product of
the history with `b` (`izip!` truncates to the shorter list, as
`zipWith` does). -/
def FIRFilter.processOne (f : FIRFilter α) (s : α) : FIRFilter α × α :=
  let x := (s :: f.x.dropLast).take f.n
  (⟨f.n, x, f.b⟩, (List.zipWith (· * ·) x f.b).sum)

/-- `IIRFilter::process_one`: shift the input history, evict the oldest
output (`self.y.pop_back()`), accumulate the feed-forward dot product
with `b` and the feedback dot product with the stored `self.a[1..]`,
divide by `self.a[0]`, push the result onto the output history and
return it. -/
def IIRFilter.processOne (f : IIRFilter α) (s : α) : IIRFilter α × α :=
  let x := (s :: f.x.dropLast).take f.n
  let y0 := f.y.dropLast
  let acc := (List.zipWith (· * ·) x f.b).sum + (List.zipWith (· * ·) y0 (f.a.drop 1)).sum
  let out := acc / f.a.getD 0 0
  (⟨f.n, x, (out :: y0).take f.n, f.b, f.a⟩, out)

/-- Sequential driving of a filter: apply `process_one` to each element
of the list in order, collecting the outputs.  This is the spec's
reference semantics for block processing (the equivalence law of
section 8) and the general runner used to state reachability. -/
def seqRun {σ : Type} (step : σ → α → σ × α) : σ → List α → σ × List α
  | f, [] => (f, [])
  | f, i :: is =>
    let p := step f i
    let q := seqRun step p.1 is
    (q.1, p.2 :: q.2)

/-- The in-place block-processing loop shared by the trait default and
the FIR-specific `process`: walk the input and the output buffer in
lock step (`izip!` / indices `0..size`), overwrite each visited output
slot with `process_one` of the input sample, stop at the shorter
buffer, and leave the unvisited tail of the output buffer unchanged.
The returned list is the final content of the output buffer. -/
def processLoop {σ : Type} (step : σ → α → σ × α) : σ → List α → List α → σ × List α
  | f, [], os => (f, os)
  | f, _ :: _, [] => (f, [])
  | f, i :: is, _o :: os =>
    let p := step f i
    let q := processLoop step p.1 is os
    (q.1, p.2 :: q.2)

/-- The `Filter` trait's default `process` (src/src/filter/mod.rs):
`assert_eq!(input.len(), output.len())` — a panic on mismatch — then
the `izip!` loop writing `process_one` of each input sample to the
corresponding output slot. -/
def Filter.process {σ : Type} (step : σ → α → σ × α) (f : σ)
    (input output : List α) : Outcome UsageError (σ × List α) :=
  if input.length = output.length then .ok (processLoop step f input output)
  else .panic

/-- `FIRFilter::process`: `size = min(input.len(), output.len())`, then
`(0..size).for_each(|i| output[i] = self.process_one(input[i]))`.
No assertion; infallible. -/
def FIRFilter.process (f : FIRFilter α) (input output : List α) :
    FIRFilter α × List α :=
  processLoop FIRFilter.processOne f input output

/-- State of a filter after the first `k` samples of the stream `u`
have been processed. -/
def iterState {σ : Type} (step : σ → α → σ × α) (f : σ) (u : ℕ → α) : ℕ → σ
  | 0 => f
  | k + 1 => (step (iterState step f u k) (u k)).1

/-- The `n`-th output sample produced by driving the filter with the
stream `u`. -/
def outSeq {σ : Type} (step : σ → α → σ × α) (f : σ) (u : ℕ → α) (n : ℕ) : α :=
  (step (iterState step f u n) (u n)).2

/-- Extension of a stream to integer indices by zero: histories are
zero-initialized, so samples before time 0 read as 0. -/
def extS (u : ℕ → α) (k : ℤ) : α :=
  if k < 0 then 0 else u k.toNat

/-- The filter record produced by a successful `IIRFilter::new`. -/
def iirInitial (N : ℕ) (b a : List α) : IIRFilter α :=
  ⟨N, List.replicate N 0, List.replicate N 0, b, negTail a⟩

/-- The filter record produced by a successful `FIRFilter::new`. -/
def firInitial (N : ℕ) (b : List α) : FIRFilter α :=
  ⟨N, List.replicate N 0, b⟩

/-! ### List helper lemmas -/

theorem getD_drop_one (l : List α) (i : ℕ) (d : α) :
    (l.drop 1).getD i d = l.getD (i + 1) d := by
  cases l <;> simp [List.getD]

theorem getD_map_neg (l : List α) (i : ℕ) :
    (l.map (fun v => -v)).getD i 0 = -(l.getD i 0) := by
  induction l generalizing i with
  | nil => simp
  | cons a t ih =>
    cases i with
    | zero => simp
    | succ j => simpa using ih j

theorem negTail_length (a : List α) : (negTail a).length = a.length := by
  cases a <;> simp [negTail]

theorem negTail_getD_zero (a : List α) : (negTail a).getD 0 0 = a.getD 0 0 := by
  cases a <;> simp [negTail]

theorem negTail_drop_one (a : List α) :
    (negTail a).drop 1 = (a.drop 1).map (fun v => -v) := by
  cases a <;> simp [negTail]

theorem dropLast_map_range (g : ℕ → α) (N : ℕ) :
    ((List.range N).map g).dropLast = (List.range (N - 1)).map g := by
  rw [List.dropLast_eq_take, ← List.map_take]
  simp [List.take_range, Nat.min_eq_left (Nat.sub_le N 1)]

theorem map_range_succ (g : ℕ → α) (m : ℕ) :
    (List.range (m + 1)).map g = g 0 :: (List.range m).map (fun i => g (i + 1)) := by
  rw [List.range_succ_eq_map, List.map_cons, List.map_map]
  rfl

/-- One shift of a history holding `e (z-1), e (z-2), …`: evicting the
oldest and pushing `e z` yields the history `e z, e (z-1), …`. -/
theorem hist_shift (e : ℤ → α) (z : ℤ) (m : ℕ) :
    e z :: ((List.range (m + 1)).map (fun i : ℕ => e (z - 1 - (i : ℤ)))).dropLast =
      (List.range (m + 1)).map (fun i : ℕ => e (z - (i : ℤ))) := by
  rw [dropLast_map_range, Nat.add_sub_cancel, map_range_succ (fun i : ℕ => e (z - (i : ℤ)))]
  simp only [Nat.cast_zero, sub_zero]
  congr 1
  apply List.map_congr_left
  intro i _
  congr 1
  push_cast
  ring

/-- A history of zero-extended samples taken entirely before time 0 is
the all-zero history. -/
theorem map_extS_neg (v : ℕ → α) (N : ℕ) (z : ℤ) (hz : z < 0) :
    (List.range N).map (fun i : ℕ => extS v (z - (i : ℤ))) = List.replicate N 0 := by
  apply List.eq_replicate_iff.mpr
  refine ⟨by simp, ?_⟩
  intro bb hb
  rw [List.mem_map] at hb
  obtain ⟨i, _, rfl⟩ := hb
  rw [extS, if_pos (by omega)]

/-- Dot product of a history shaped as `g 0, g 1, …` with a coefficient
list, as a finite sum over indices. -/
theorem zipWith_map_range_sum (g : ℕ → α) (l : List α) :
    (List.zipWith (· * ·) ((List.range l.length).map g) l).sum =
      ∑ i in Finset.range l.length, g i * l.getD i 0 := by
  induction l generalizing g with
  | nil => simp
  | cons a t ih =>
    rw [List.length_cons, map_range_succ, List.zipWith_cons_cons, List.sum_cons,
      Finset.sum_range_succ']
    simp only [List.getD_cons_succ, List.getD_cons_zero]
    rw [ih (fun i => g (i + 1))]
    exact add_comm _ _

theorem extS_natCast (v : ℕ → α) (k : ℕ) : extS v ((k : ℕ) : ℤ) = v k := by
  rw [extS, if_neg (by omega)]
  simp

/-- State invariant of the IIR filter: after `k` samples of the stream
`u`, the input history holds the zero-extended samples
`u (k-1), …, u (k-N)` newest first, the output history holds the
zero-extended outputs `y (k-1), …, y (k-N)`, and the coefficient
storage is unchanged. -/
theorem iir_state_inv (N : ℕ) (b a : List α) (u : ℕ → α) (k : ℕ) :
    iterState IIRFilter.processOne (iirInitial N b a) u k =
      ⟨N, (List.range N).map (fun i : ℕ => extS u ((k : ℤ) - 1 - (i : ℤ))),
        (List.range N).map
          (fun i : ℕ =>
            extS (outSeq IIRFilter.processOne (iirInitial N b a) u) ((k : ℤ) - 1 - (i : ℤ))),
        b, negTail a⟩ := by
  induction k with
  | zero =>
    rw [iterState, map_extS_neg u N (((0 : ℕ) : ℤ) - 1) (by norm_num),
      map_extS_neg (outSeq IIRFilter.processOne (iirInitial N b a) u) N
        (((0 : ℕ) : ℤ) - 1) (by norm_num)]
    rfl
  | succ k ih =>
    have hout : outSeq IIRFilter.processOne (iirInitial N b a) u k =
        (IIRFilter.processOne
          ⟨N, (List.range N).map (fun i : ℕ => extS u ((k : ℤ) - 1 - (i : ℤ))),
            (List.range N).map
              (fun i : ℕ =>
                extS (outSeq IIRFilter.processOne (iirInitial N b a) u)
                  ((k : ℤ) - 1 - (i : ℤ))),
            b, negTail a⟩ (u k)).2 := by
      rw [outSeq, ih]
    rw [iterState, ih]
    cases N with
    | zero =>
      simp [IIRFilter.processOne]
    | succ m =>
      simp only [IIRFilter.processOne, IIRFilter.mk.injEq]
      refine ⟨trivial, ?_, ?_, trivial, trivial⟩
      · rw [show u k = extS u ((k : ℕ) : ℤ) from (extS_natCast u k).symm,
          hist_shift (extS u) ((k : ℕ) : ℤ) m,
          List.take_of_length_le (by simp)]
        apply List.map_congr_left
        intro i _
        congr 1
        push_cast
        ring
      · rw [show
          ((List.zipWith (· * ·)
              ((u k ::
                  ((List.range (m + 1)).map
                    (fun i : ℕ => extS u ((k : ℤ) - 1 - (i : ℤ)))).dropLast).take (m + 1))
              b).sum +
            (List.zipWith (· * ·)
              (((List.range (m + 1)).map
                  (fun i : ℕ =>
                    extS (outSeq IIRFilter.processOne (iirInitial (m + 1) b a) u)
                      ((k : ℤ) - 1 - (i : ℤ)))).dropLast)
              ((negTail a).drop 1)).sum) / (negTail a).getD 0 0 =
            outSeq IIRFilter.processOne (iirInitial (m + 1) b a) u k from by
            rw [hout]; simp only [IIRFilter.processOne]]
        rw [show outSeq IIRFilter.processOne (iirInitial (m + 1) b a) u k =
            extS (outSeq IIRFilter.processOne (iirInitial (m + 1) b a) u) ((k : ℕ) : ℤ) from
            (extS_natCast _ k).symm,
          hist_shift (extS (outSeq IIRFilter.processOne (iirInitial (m + 1) b a) u))
            ((k : ℕ) : ℤ) m,
          List.take_of_length_le (by simp)]
        apply List.map_congr_left
        intro i _
        congr 1
        push_cast
        ring

/-- State invariant of the FIR filter: after `k` samples of `u`, the
input history holds the zero-extended samples `u (k-1), …, u (k-N)`
newest first, and `b` is unchanged. -/
theorem fir_state_inv (N : ℕ) (b : List α) (u : ℕ → α) (k : ℕ) :
    iterState FIRFilter.processOne (firInitial N b) u k =
      ⟨N, (List.range N).map (fun i : ℕ => extS u ((k : ℤ) - 1 - (i : ℤ))), b⟩ := by
  induction k with
  | zero =>
    rw [iterState, map_extS_neg u N (((0 : ℕ) : ℤ) - 1) (by norm_num)]
    rfl
  | succ k ih =>
    rw [iterState, ih]
    cases N with
    | zero => simp [FIRFilter.processOne]
    | succ m =>
      simp only [FIRFilter.processOne, FIRFilter.mk.injEq]
      refine ⟨trivial, ?_, trivial⟩
      rw [show u k = extS u ((k : ℕ) : ℤ) from (extS_natCast u k).symm,
        hist_shift (extS u) ((k : ℕ) : ℤ) m,
        List.take_of_length_le (by simp)]
      apply List.map_congr_left
      intro i _
      congr 1
      push_cast
      ring

/-- Version of `zipWith_map_range_sum` with the length given as a
separate equation. -/
theorem zipWith_map_range_sum_len (g : ℕ → α) (l : List α) (N : ℕ) (h : l.length = N) :
    (List.zipWith (· * ·) ((List.range N).map g) l).sum =
      ∑ i in Finset.range N, g i * l.getD i 0 := by
  subst h
  exact zipWith_map_range_sum g l

/-- One `process_one` step of the IIR filter on a state in invariant
shape, fed the current sample `e z`. -/
theorem iir_processOne_shaped (m : ℕ) (b a : List α) (e v : ℤ → α) (z : ℤ) :
    (IIRFilter.processOne
      ⟨m + 1, (List.range (m + 1)).map (fun i : ℕ => e (z - 1 - (i : ℤ))),
        (List.range (m + 1)).map (fun i : ℕ => v (z - 1 - (i : ℤ))), b, negTail a⟩ (e z)).2 =
      ((List.zipWith (· * ·) ((List.range (m + 1)).map (fun i : ℕ => e (z - (i : ℤ)))) b).sum +
        (List.zipWith (· * ·) ((List.range m).map (fun i : ℕ => v (z - 1 - (i : ℤ))))
          ((a.drop 1).map (fun w => -w))).sum) / a.getD 0 0 := by
  simp only [IIRFilter.processOne]
  rw [hist_shift e z m, List.take_of_length_le (by simp), dropLast_map_range,
    negTail_drop_one, negTail_getD_zero, Nat.add_sub_cancel]

/-- One `process_one` step of the FIR filter on a state in invariant
shape, fed the current sample `e z`. -/
theorem fir_processOne_shaped (m : ℕ) (b : List α) (e : ℤ → α) (z : ℤ) :
    (FIRFilter.processOne
      ⟨m + 1, (List.range (m + 1)).map (fun i : ℕ => e (z - 1 - (i : ℤ))), b⟩ (e z)).2 =
      (List.zipWith (· * ·) ((List.range (m + 1)).map (fun i : ℕ => e (z - (i : ℤ)))) b).sum := by
  simp only [FIRFilter.processOne]
  rw [hist_shift e z m, List.take_of_length_le (by simp)]

/-- Closed form of the `k`-th IIR output: feed-forward dot product plus
feedback dot product with the negated tail of `a`, divided by `a[0]`. -/
theorem iir_out_formula (N : ℕ) (b a : List α) (hb : b.length = N) (ha : a.length = N)
    (u : ℕ → α) (k : ℕ) :
    outSeq IIRFilter.processOne (iirInitial N b a) u k =
      ((∑ i in Finset.range N, extS u ((k : ℤ) - (i : ℤ)) * b.getD i 0) +
        ∑ i in Finset.range (N - 1),
          extS (outSeq IIRFilter.processOne (iirInitial N b a) u) ((k : ℤ) - 1 - (i : ℤ)) *
            (-(a.getD (i + 1) 0))) / a.getD 0 0 := by
  rw [outSeq, iir_state_inv]
  cases N with
  | zero =>
    simp [IIRFilter.processOne, negTail_getD_zero]
  | succ m =>
    rw [show u k = extS u ((k : ℕ) : ℤ) from (extS_natCast u k).symm,
      iir_processOne_shaped m b a (extS u)
        (extS (outSeq IIRFilter.processOne (iirInitial (m + 1) b a) u)) ((k : ℕ) : ℤ),
      zipWith_map_range_sum_len _ b (m + 1) hb,
      zipWith_map_range_sum_len _ ((a.drop 1).map (fun w => -w)) m
        (by simp [ha]), Nat.add_sub_cancel]
    congr 1
    congr 1
    apply Finset.sum_congr rfl
    intro i _
    rw [getD_map_neg, getD_drop_one]

/-- Closed form of the `k`-th FIR output: dot product of the
zero-extended input history with `b`. -/
theorem fir_out_formula (N : ℕ) (b : List α) (hb : b.length = N) (u : ℕ → α) (k : ℕ) :
    outSeq FIRFilter.processOne (firInitial N b) u k =
      ∑ i in Finset.range N, extS u ((k : ℤ) - (i : ℤ)) * b.getD i 0 := by
  rw [outSeq, fir_state_inv]
  cases N with
  | zero =>
    have : b = [] := List.length_eq_zero.mp hb
    simp [FIRFilter.processOne, this]
  | succ m =>
    rw [show u k = extS u ((k : ℕ) : ℤ) from (extS_natCast u k).symm,
      fir_processOne_shaped m b (extS u) ((k : ℕ) : ℤ),
      zipWith_map_range_sum_len _ b (m + 1) hb]

/-- Successful construction of an IIR filter, characterized. -/
theorem iir_new_eq_ok [DecidableEq α] {n : ℕ} {b a : List α} {f : IIRFilter α} :
    IIRFilter.new n b a = .ok f ↔
      a.getD 0 0 ≠ 0 ∧ b.length = n ∧ a.length = n ∧ f = iirInitial n b a := by
  unfold IIRFilter.new iirInitial
  split_ifs with h1 h2 h3 h4
  · exact iff_of_false (by simp) (fun h => h.1 (by rw [List.length_eq_zero.mp h1]; rfl))
  · exact iff_of_false (by simp) (fun h => h.1 h2)
  · constructor
    · intro h
      exact ⟨h2, h3, h4, (Outcome.ok.inj h).symm⟩
    · rintro ⟨-, -, -, rfl⟩
      rfl
  · exact iff_of_false (by simp) (fun h => h4 h.2.2.1)
  · exact iff_of_false (by simp) (fun h => h3 h.2.1)

/-- Successful construction of an FIR filter, characterized. -/
theorem fir_new_eq_ok {n : ℕ} {b : List α} {f : FIRFilter α} :
    FIRFilter.new n b = .ok f ↔ b.length = n ∧ f = firInitial n b := by
  unfold FIRFilter.new firInitial
  split_ifs with h1
  · constructor
    · intro h
      exact ⟨h1, (Outcome.ok.inj h).symm⟩
    · rintro ⟨-, rfl⟩
      rfl
  · exact iff_of_false (by simp) (fun h => h1 h.1)

/-! ### Claim theorems -/

/-- C1: for every IIR filter successfully constructed from coefficient
vectors `b` and `a` of length `N` with nonzero leading `a`, and every
input stream `u`, the `n`-th output of repeated `process_one` calls
satisfies the standard difference equation
`a[0]*y[n] = Σ b[i]*x[n-i] − Σ_{i≥1} a[i]*y[n-i]`, with input and
output histories reading as zero before time 0.  The statement is in
terms of the caller-supplied `a`, so the internally negated storage of
`a[1..]` is invisible in the observable behaviour. -/
theorem C1_iir_difference_equation [DecidableEq α] (N : ℕ) (b a : List α)
    (f : IIRFilter α) (hf : IIRFilter.new N b a = .ok f) (u : ℕ → α) (n : ℕ) :
    a.getD 0 0 * outSeq IIRFilter.processOne f u n =
      (∑ i in Finset.range N, b.getD i 0 * extS u ((n : ℤ) - (i : ℤ))) -
        ∑ i in Finset.Ico 1 N, a.getD i 0 *
          extS (outSeq IIRFilter.processOne f u) ((n : ℤ) - (i : ℤ)) := by
  obtain ⟨ha0, hb, ha, rfl⟩ := iir_new_eq_ok.mp hf
  have h1 : (∑ i in Finset.range N, extS u ((n : ℤ) - (i : ℤ)) * b.getD i 0) =
      ∑ i in Finset.range N, b.getD i 0 * extS u ((n : ℤ) - (i : ℤ)) :=
    Finset.sum_congr rfl fun i _ => mul_comm _ _
  have h2 : (∑ i in Finset.range (N - 1),
      extS (outSeq IIRFilter.processOne (iirInitial N b a) u) ((n : ℤ) - 1 - (i : ℤ)) *
        (-(a.getD (i + 1) 0))) =
      -∑ i in Finset.Ico 1 N, a.getD i 0 *
        extS (outSeq IIRFilter.processOne (iirInitial N b a) u) ((n : ℤ) - (i : ℤ)) := by
    rw [Finset.sum_Ico_eq_sum_range, ← Finset.sum_neg_distrib]
    apply Finset.sum_congr rfl
    intro x _
    rw [Nat.add_comm 1 x,
      show (n : ℤ) - ((x + 1 : ℕ) : ℤ) = (n : ℤ) - 1 - (x : ℤ) by push_cast; ring]
    ring
  rw [iir_out_formula N b a hb ha u n, mul_comm, div_mul_cancel₀ _ ha0, h1, h2,
    sub_eq_add_neg]

/-- Witness for C1: the one-tap IIR filter with b = [2], a = [1] on the
constant stream 3 outputs 6 at step 0, matching the difference
equation. -/
theorem C1_witness :
    IIRFilter.new (α := ℚ) 1 [2] [1] = .ok ⟨1, [0], [0], [2], [1]⟩ ∧
      ([1] : List ℚ).getD 0 0 *
          outSeq IIRFilter.processOne (⟨1, [0], [0], [2], [1]⟩ : IIRFilter ℚ)
            (fun _ => 3) 0 = 6 := by
  refine ⟨by decide, ?_⟩
  have h := C1_iir_difference_equation (α := ℚ) 1 [2] [1] ⟨1, [0], [0], [2], [1]⟩
    (by decide) (fun _ => 3) 0
  rw [h]
  norm_num [extS]

/-- C2: for every FIR filter successfully constructed from a
coefficient vector `b` of length `N` and every input stream `u`, the
`n`-th output of repeated `process_one` calls is the causal convolution
`Σ_{i<N} b[i]*x[n-i]` with inputs reading as zero before time 0, and
the input history is the only state a `process_one` call mutates (the
capacity and the coefficients are unchanged by every call). -/
theorem C2_fir_convolution (N : ℕ) (b : List α) (f : FIRFilter α)
    (hf : FIRFilter.new N b = .ok f) (u : ℕ → α) (n : ℕ) :
    outSeq FIRFilter.processOne f u n =
        (∑ i in Finset.range N, b.getD i 0 * extS u ((n : ℤ) - (i : ℤ))) ∧
      ∀ (g : FIRFilter α) (s : α),
        (FIRFilter.processOne g s).1.b = g.b ∧ (FIRFilter.processOne g s).1.n = g.n := by
  obtain ⟨hb, rfl⟩ := fir_new_eq_ok.mp hf
  refine ⟨?_, fun g s => ⟨rfl, rfl⟩⟩
  rw [fir_out_formula N b hb u n]
  exact Finset.sum_congr rfl fun i _ => mul_comm _ _

/-- Witness for C2: the two-tap FIR filter with b = [1, 2] on the
stream 5, 7, 9, … outputs 1*7 + 2*5 = 17 at step 1. -/
theorem C2_witness :
    FIRFilter.new (α := ℚ) 2 [1, 2] = .ok ⟨2, [0, 0], [1, 2]⟩ ∧
      outSeq FIRFilter.processOne (⟨2, [0, 0], [1, 2]⟩ : FIRFilter ℚ)
        (fun k => 5 + 2 * k) 1 = 17 := by
  refine ⟨by decide, ?_⟩
  have h := (C2_fir_convolution (α := ℚ) 2 [1, 2] ⟨2, [0, 0], [1, 2]⟩
    (by decide) (fun k => 5 + 2 * k) 1).1
  rw [h]
  norm_num [Finset.sum_range_succ, extS]

/-- The outputs collected by a sequential run are as many as the
inputs. -/
theorem seqRun_snd_length {σ : Type} (step : σ → α → σ × α) (f : σ) (l : List α) :
    (seqRun step f l).2.length = l.length := by
  induction l generalizing f with
  | nil => rfl
  | cons i is ih => simp [seqRun, ih]

/-- Structure of the block-processing loop: it consumes the first
`min` samples of the input sequentially and leaves the tail of the
output buffer untouched. -/
theorem processLoop_eq {σ : Type} (step : σ → α → σ × α) (f : σ) (input output : List α) :
    processLoop step f input output =
      ((seqRun step f (input.take (min input.length output.length))).1,
        (seqRun step f (input.take (min input.length output.length))).2 ++
          output.drop (min input.length output.length)) := by
  induction input generalizing f output with
  | nil => simp [processLoop, seqRun]
  | cons i is ih =>
    cases output with
    | nil => simp [processLoop, seqRun]
    | cons o os =>
      simp only [processLoop, List.length_cons, Nat.succ_min_succ, List.take_succ_cons,
        List.drop_succ_cons, seqRun, ih]
      simp

/-- On equal-length buffers, the block-processing loop is exactly the
sequential run. -/
theorem processLoop_eq_seqRun {σ : Type} (step : σ → α → σ × α) (f : σ)
    (input output : List α) (h : input.length = output.length) :
    processLoop step f input output = seqRun step f input := by
  rw [processLoop_eq, h, Nat.min_self, List.take_of_length_le (le_of_eq h),
    List.drop_length, List.append_nil]

/-- C3: for both filter variants and any starting state, block
processing over equal-length buffers produces exactly the final state
and outputs of calling `process_one` on each input element in order:
the FIR-specific `process` literally, the trait default `process`
wrapped in a successful outcome. -/
theorem C3_block_equals_sequential (fir : FIRFilter α) (iir : IIRFilter α)
    (input output : List α) (h : input.length = output.length) :
    FIRFilter.process fir input output = seqRun FIRFilter.processOne fir input ∧
      Filter.process IIRFilter.processOne iir input output =
        .ok (seqRun IIRFilter.processOne iir input) := by
  constructor
  · exact processLoop_eq_seqRun FIRFilter.processOne fir input output h
  · rw [Filter.process, if_pos h, processLoop_eq_seqRun IIRFilter.processOne iir input output h]

/-- Witness for C3 at concrete two-sample buffers. -/
theorem C3_witness :
    FIRFilter.process (⟨1, [0], [2]⟩ : FIRFilter ℚ) [1, 2] [5, 5] =
        seqRun FIRFilter.processOne ⟨1, [0], [2]⟩ [1, 2] ∧
      Filter.process IIRFilter.processOne (⟨1, [0], [0], [2], [1]⟩ : IIRFilter ℚ) [1, 2] [5, 5] =
        .ok (seqRun IIRFilter.processOne ⟨1, [0], [0], [2], [1]⟩ [1, 2]) :=
  C3_block_equals_sequential ⟨1, [0], [2]⟩ ⟨1, [0], [0], [2], [1]⟩ [1, 2] [5, 5] rfl

/-- C4 counterexample: on mismatched buffer lengths the trait default
`process` panics (assertion failure); it does not return a recoverable
error value, contrary to the claim. -/
theorem C4_counterexample :
    (Filter.process IIRFilter.processOne (⟨1, [0], [0], [2], [1]⟩ : IIRFilter ℚ)
        [1] []).isErr = false ∧
      (Filter.process IIRFilter.processOne (⟨1, [0], [0], [2], [1]⟩ : IIRFilter ℚ)
        [1] []).isPanic = true := by
  constructor <;> rfl

/-- C4 amended: the trait default `process` fails on a length mismatch
by panicking, i.e. as an assertion failure terminating the program, not
as a recoverable error value; with equal lengths it applies
`process_one` to each input element in order. -/
theorem C4_default_process_behaviour {σ : Type} (step : σ → α → σ × α) (f : σ)
    (input output : List α) :
    Filter.process step f input output =
      if input.length = output.length then .ok (seqRun step f input) else .panic := by
  rw [Filter.process]
  split_ifs with h
  · rw [processLoop_eq_seqRun step f input output h]
  · rfl

/-- C6: the FIR-specific `process` truncates to the shorter buffer: it
sequentially processes exactly the first `min(len(input), len(output))`
input samples, writes their outputs to the corresponding positions,
keeps the remaining output tail, and (being a total function into
states and buffers, with no error outcome) reports no usage error for
mismatched lengths. -/
theorem C6_fir_process_truncates (f : FIRFilter α) (input output : List α) :
    FIRFilter.process f input output =
      ((seqRun FIRFilter.processOne f (input.take (min input.length output.length))).1,
        (seqRun FIRFilter.processOne f (input.take (min input.length output.length))).2 ++
          output.drop (min input.length output.length)) :=
  processLoop_eq FIRFilter.processOne f input output

/-- C10: frame effect of the FIR-specific `process`: output positions
from index `len(input)` on are left exactly as they were, and the final
filter state is the one obtained by consuming only the first
`len(output)` input samples. -/
theorem C10_fir_process_frame_effect (f : FIRFilter α) (input output : List α) :
    (FIRFilter.process f input output).2.drop input.length = output.drop input.length ∧
      (FIRFilter.process f input output).1 =
        (seqRun FIRFilter.processOne f (input.take output.length)).1 := by
  have hmin : input.take (min input.length output.length) = input.take output.length := by
    rw [Nat.min_comm, ← List.take_take, List.take_length]
  constructor
  · rw [show FIRFilter.process f input output = _ from processLoop_eq _ f input output]
    have hlen : (seqRun FIRFilter.processOne f
        (input.take (min input.length output.length))).2.length =
        min input.length output.length := by
      rw [seqRun_snd_length, List.length_take]
      omega
    rcases Nat.le_total input.length output.length with hle | hle
    · rw [Nat.min_eq_left hle] at hlen ⊢
      rw [List.drop_left' hlen]
    · rw [Nat.min_eq_right hle] at hlen ⊢
      rw [List.drop_length, List.append_nil,
        List.drop_eq_nil_of_le (by rw [hlen]; exact hle),
        List.drop_eq_nil_of_le hle]
  · rw [show FIRFilter.process f input output = _ from processLoop_eq _ f input output, hmin]

/-- C5 counterexample: `IIRFilter::new` with `a[0] = 0` panics
(assertion failure); it does not return a recoverable ConfigError
value, contrary to the claim. -/
theorem C5_counterexample :
    (IIRFilter.new (α := ℚ) 3 [1, 1, 0] [0, 1, 0]).isErr = false ∧
      (IIRFilter.new (α := ℚ) 3 [1, 1, 0] [0, 1, 0]).isPanic = true := by
  constructor <;> rfl

/-- C5 amended: `IIRFilter::new` fails by panicking (assertion
failure, not a recoverable error value) exactly when `a[0] = 0` (an
empty `a` included) or a coefficient length mismatches the fixed
capacity; otherwise it returns the filter whose two histories are
zero-filled at capacity `n`; it never produces an error value. -/
theorem C5_iir_new_validation [DecidableEq α] (n : ℕ) (b a : List α) :
    (IIRFilter.new n b a = .panic ↔
        a.getD 0 0 = 0 ∨ b.length ≠ n ∨ a.length ≠ n) ∧
      (a.getD 0 0 ≠ 0 → b.length = n → a.length = n →
        IIRFilter.new n b a =
          .ok ⟨n, List.replicate n 0, List.replicate n 0, b, negTail a⟩) ∧
      ∀ e : ConfigError, IIRFilter.new n b a ≠ .err e := by
  refine ⟨?_, ?_, ?_⟩
  · unfold IIRFilter.new
    split_ifs with h1 h2 h3 h4
    · exact iff_of_true rfl (Or.inl (by rw [List.length_eq_zero.mp h1]; rfl))
    · exact iff_of_true rfl (Or.inl h2)
    · refine iff_of_false (by simp) ?_
      rintro (h | h | h)
      · exact h2 h
      · exact h h3
      · exact h h4
    · exact iff_of_true rfl (Or.inr (Or.inr h4))
    · exact iff_of_true rfl (Or.inr (Or.inl h3))
  · intro ha0 hb ha
    have h1 : ¬a.length = 0 := fun h0 =>
      ha0 (by rw [List.length_eq_zero.mp h0]; rfl)
    unfold IIRFilter.new
    rw [if_neg h1, if_neg ha0, if_pos hb, if_pos ha]
  · intro e
    unfold IIRFilter.new
    split_ifs <;> simp

/-- Witness for the amended C5: valid bilinear-transform coefficients
construct the zero-history filter (with the tail of a negated in
storage). -/
theorem C5_witness :
    IIRFilter.new (α := ℚ) 3 [1, 1, 0] [21, -19, 0] =
      .ok ⟨3, [0, 0, 0], [0, 0, 0], [1, 1, 0], [21, 19, 0]⟩ := by
  have h := (C5_iir_new_validation (α := ℚ) 3 [1, 1, 0] [21, -19, 0]).2.1
    (by norm_num) rfl rfl
  rw [h]
  rfl

/-- Sequential processing never touches the stored feedback
coefficients of an IIR filter. -/
theorem seqRun_iir_a (g : IIRFilter α) (l : List α) :
    ((seqRun IIRFilter.processOne g l).1).a = g.a := by
  induction l generalizing g with
  | nil => rfl
  | cons i is ih => exact (ih ((IIRFilter.processOne g i).1)).trans rfl

/-- C7: for a validly constructed IIR filter, after any number of
`process_one` calls the stored leading feedback coefficient is still
the caller's `a[0]`, is nonzero (the division in `process_one` never
divides by zero), and the coefficient array is nonempty (the accesses
`a[0]` and `a[1..]` stay in bounds); so the panic branches of
steady-state processing are unreachable. -/
theorem C7_no_runtime_errors [DecidableEq α] (N : ℕ) (b a : List α)
    (f : IIRFilter α) (hf : IIRFilter.new N b a = .ok f) (inputs : List α) :
    ((seqRun IIRFilter.processOne f inputs).1).a.getD 0 0 = a.getD 0 0 ∧
      ((seqRun IIRFilter.processOne f inputs).1).a.getD 0 0 ≠ 0 ∧
      0 < ((seqRun IIRFilter.processOne f inputs).1).a.length := by
  obtain ⟨ha0, hb, ha, rfl⟩ := iir_new_eq_ok.mp hf
  rw [seqRun_iir_a]
  unfold iirInitial
  rw [negTail_getD_zero, negTail_length]
  refine ⟨rfl, ha0, ?_⟩
  cases a with
  | nil => exact absurd rfl ha0
  | cons x t => simp

/-- Witness for C7 on a concrete one-tap filter after three samples. -/
theorem C7_witness :
    ((seqRun IIRFilter.processOne (⟨1, [0], [0], [2], [1]⟩ : IIRFilter ℚ)
          [1, 2, 3]).1).a.getD 0 0 = ([1] : List ℚ).getD 0 0 ∧
      ((seqRun IIRFilter.processOne (⟨1, [0], [0], [2], [1]⟩ : IIRFilter ℚ)
          [1, 2, 3]).1).a.getD 0 0 ≠ 0 ∧
      0 < ((seqRun IIRFilter.processOne (⟨1, [0], [0], [2], [1]⟩ : IIRFilter ℚ)
          [1, 2, 3]).1).a.length :=
  C7_no_runtime_errors 1 [2] [1] ⟨1, [0], [0], [2], [1]⟩ (by decide) [1, 2, 3]

/-- Sequential FIR processing keeps the history length at capacity and
the coefficients and capacity unchanged. -/
theorem seqRun_fir_lengths (g : FIRFilter α) (l : List α) (hx : g.x.length = g.n) :
    ((seqRun FIRFilter.processOne g l).1).x.length = g.n ∧
      ((seqRun FIRFilter.processOne g l).1).b = g.b ∧
      ((seqRun FIRFilter.processOne g l).1).n = g.n := by
  induction l generalizing g with
  | nil => exact ⟨hx, rfl, rfl⟩
  | cons i is ih =>
    have hstep : ((FIRFilter.processOne g i).1).x.length = g.n := by
      simp only [FIRFilter.processOne, List.length_take, List.length_cons,
        List.length_dropLast]
      omega
    obtain ⟨h1, h2, h3⟩ := ih (FIRFilter.processOne g i).1 hstep
    exact ⟨h1, h2, h3⟩

/-- Sequential IIR processing keeps both history lengths at capacity
and the coefficients and capacity unchanged. -/
theorem seqRun_iir_lengths (g : IIRFilter α) (l : List α)
    (hx : g.x.length = g.n) (hy : g.y.length = g.n) :
    ((seqRun IIRFilter.processOne g l).1).x.length = g.n ∧
      ((seqRun IIRFilter.processOne g l).1).y.length = g.n ∧
      ((seqRun IIRFilter.processOne g l).1).b = g.b ∧
      ((seqRun IIRFilter.processOne g l).1).a = g.a ∧
      ((seqRun IIRFilter.processOne g l).1).n = g.n := by
  induction l generalizing g with
  | nil => exact ⟨hx, hy, rfl, rfl, rfl⟩
  | cons i is ih =>
    have hstepx : ((IIRFilter.processOne g i).1).x.length = g.n := by
      simp only [IIRFilter.processOne, List.length_take, List.length_cons,
        List.length_dropLast]
      omega
    have hstepy : ((IIRFilter.processOne g i).1).y.length = g.n := by
      simp only [IIRFilter.processOne, List.length_take, List.length_cons,
        List.length_dropLast]
      omega
    obtain ⟨h1, h2, h3, h4, h5⟩ := ih (IIRFilter.processOne g i).1 hstepx hstepy
    exact ⟨h1, h2, h3, h4, h5⟩

/-- C8: for validly constructed filters, after any number of
`process_one` calls (hence after any block `process` call, which is a
sequential run) both history buffers still hold exactly `N` samples,
and the coefficient-length invariants `len(b) = capacity(x)` and, for
IIR, `len(a) = capacity(y) = capacity(x) = N` hold. -/
theorem C8_capacity_invariants [DecidableEq α] (N : ℕ) (bf bi a : List α)
    (ff : FIRFilter α) (fi : IIRFilter α)
    (hff : FIRFilter.new N bf = .ok ff) (hfi : IIRFilter.new N bi a = .ok fi)
    (inputs : List α) :
    ((seqRun FIRFilter.processOne ff inputs).1).x.length = N ∧
      ((seqRun FIRFilter.processOne ff inputs).1).b.length = N ∧
      ((seqRun IIRFilter.processOne fi inputs).1).x.length = N ∧
      ((seqRun IIRFilter.processOne fi inputs).1).y.length = N ∧
      ((seqRun IIRFilter.processOne fi inputs).1).b.length = N ∧
      ((seqRun IIRFilter.processOne fi inputs).1).a.length = N := by
  obtain ⟨hbf, rfl⟩ := fir_new_eq_ok.mp hff
  obtain ⟨ha0, hbi, ha, rfl⟩ := iir_new_eq_ok.mp hfi
  obtain ⟨f1, f2, f3⟩ := seqRun_fir_lengths (firInitial N bf) inputs (by simp [firInitial])
  obtain ⟨i1, i2, i3, i4, i5⟩ := seqRun_iir_lengths (iirInitial N bi a) inputs
    (by simp [iirInitial]) (by simp [iirInitial])
  refine ⟨f1, ?_, i1, i2, ?_, ?_⟩
  · rw [f2]
    exact hbf
  · rw [i3]
    exact hbi
  · rw [i4]
    unfold iirInitial
    rw [negTail_length]
    exact ha

/-- Witness for C8 on concrete one-tap filters after three samples. -/
theorem C8_witness :
    ((seqRun FIRFilter.processOne (⟨1, [0], [2]⟩ : FIRFilter ℚ) [1, 2, 3]).1).x.length = 1 ∧
      ((seqRun FIRFilter.processOne (⟨1, [0], [2]⟩ : FIRFilter ℚ) [1, 2, 3]).1).b.length = 1 ∧
      ((seqRun IIRFilter.processOne (⟨1, [0], [0], [2], [1]⟩ : IIRFilter ℚ)
          [1, 2, 3]).1).x.length = 1 ∧
      ((seqRun IIRFilter.processOne (⟨1, [0], [0], [2], [1]⟩ : IIRFilter ℚ)
          [1, 2, 3]).1).y.length = 1 ∧
      ((seqRun IIRFilter.processOne (⟨1, [0], [0], [2], [1]⟩ : IIRFilter ℚ)
          [1, 2, 3]).1).b.length = 1 ∧
      ((seqRun IIRFilter.processOne (⟨1, [0], [0], [2], [1]⟩ : IIRFilter ℚ)
          [1, 2, 3]).1).a.length = 1 :=
  C8_capacity_invariants 1 [2] [2] [1] ⟨1, [0], [2]⟩ ⟨1, [0], [0], [2], [1]⟩
    (by decide) (by decide) [1, 2, 3]

theorem extS_of_neg (v : ℕ → α) (k : ℤ) (hk : k < 0) : extS v k = 0 := by
  rw [extS, if_pos hk]

theorem extS_zero (v : ℕ → α) : extS v (0 : ℤ) = v 0 := by
  rw [extS, if_neg (by norm_num)]
  rfl

/-- One step of the bilinear-transform RC filter (b = [1,1,0],
a = [21,-19,0]) on the unit step: `y (n+1) = (2 + 19 y n) / 21`. -/
theorem rc_recurrence (n : ℕ) :
    outSeq IIRFilter.processOne (iirInitial 3 [1, 1, 0] [(21 : ℚ), -19, 0])
        (fun _ => 1) (n + 1) =
      (2 + 19 * outSeq IIRFilter.processOne (iirInitial 3 [1, 1, 0] [(21 : ℚ), -19, 0])
        (fun _ => 1) n) / 21 := by
  rw [iir_out_formula 3 [1, 1, 0] [(21 : ℚ), -19, 0] rfl rfl]
  simp only [show (3 : ℕ) - 1 = 2 from rfl, Finset.sum_range_succ, Finset.sum_range_zero,
    List.getD_cons_zero, List.getD_cons_succ, Nat.cast_zero, Nat.cast_one, Nat.cast_ofNat,
    sub_zero, zero_add, mul_zero, add_zero, neg_neg, neg_zero, mul_one, zero_mul]
  rw [show ((n + 1 : ℕ) : ℤ) - 1 = ((n : ℕ) : ℤ) from by push_cast; ring]
  simp only [extS_natCast]
  ring

/-- Closed form of the unit-step response of the bilinear-transform RC
filter: `y n = 1 − (20/21)·(19/21)^n`. -/
theorem rc_closed_form (n : ℕ) :
    outSeq IIRFilter.processOne (iirInitial 3 [1, 1, 0] [(21 : ℚ), -19, 0])
        (fun _ => 1) n =
      1 - 20 / 21 * (19 / 21) ^ n := by
  induction n with
  | zero =>
    rw [iir_out_formula 3 [1, 1, 0] [(21 : ℚ), -19, 0] rfl rfl]
    simp only [show (3 : ℕ) - 1 = 2 from rfl, Finset.sum_range_succ, Finset.sum_range_zero,
      List.getD_cons_zero, List.getD_cons_succ, Nat.cast_zero, Nat.cast_one, Nat.cast_ofNat,
      sub_zero, zero_add, mul_zero, add_zero, neg_neg, neg_zero, mul_one, zero_mul, zero_sub]
    rw [extS_zero, extS_of_neg (fun _ => (1 : ℚ)) (-1) (by norm_num),
      extS_of_neg _ (-1) (by norm_num)]
    norm_num
  | succ n ih =>
    rw [rc_recurrence n, ih, pow_succ]
    ring

/-- Scaled integer form of the upper comparison between the geometric
envelope 10/11 and the digital response, for the first 50 samples. -/
theorem rc_upper_nat : ∀ n : ℕ, n < 50 →
    20 * 10 ^ n * 21 ^ (n + 1) ≤ 400 * 209 ^ n + 11 ^ n * 21 ^ (n + 1) := by
  decide

/-- Scaled integer form of the lower comparison between the geometric
envelope 9/10 and the digital response, for the first 50 samples. -/
theorem rc_lower_nat : ∀ n : ℕ, n < 50 →
    400 * 190 ^ n ≤ 20 * 9 ^ n * 21 ^ (n + 1) + 10 ^ n * 21 ^ (n + 1) := by
  decide

theorem rc_upper_real (n : ℕ) (hn : n < 50) :
    ((10 : ℝ) / 11) ^ n ≤ 20 / 21 * ((19 : ℝ) / 21) ^ n + 1 / 20 := by
  have h' : (20 * 10 ^ n * 21 ^ (n + 1) : ℝ) ≤ 400 * 209 ^ n + 11 ^ n * 21 ^ (n + 1) := by
    exact_mod_cast rc_upper_nat n hn
  rw [show (209 : ℝ) ^ n = 19 ^ n * 11 ^ n from by
    rw [show (209 : ℝ) = 19 * 11 by norm_num, mul_pow]] at h'
  rw [div_pow, div_pow,
    show (20 : ℝ) / 21 * ((19 : ℝ) ^ n / 21 ^ n) + 1 / 20 =
      (400 * 19 ^ n + 21 ^ (n + 1)) / (20 * 21 ^ (n + 1)) from by
      rw [pow_succ]
      field_simp
      ring,
    div_le_div_iff₀ (by positivity) (by positivity)]
  nlinarith [h']

theorem rc_lower_real (n : ℕ) (hn : n < 50) :
    20 / 21 * ((19 : ℝ) / 21) ^ n - 1 / 20 ≤ ((9 : ℝ) / 10) ^ n := by
  have h' : (400 * 190 ^ n : ℝ) ≤ 20 * 9 ^ n * 21 ^ (n + 1) + 10 ^ n * 21 ^ (n + 1) := by
    exact_mod_cast rc_lower_nat n hn
  rw [show (190 : ℝ) ^ n = 19 ^ n * 10 ^ n from by
    rw [show (190 : ℝ) = 19 * 10 by norm_num, mul_pow]] at h'
  rw [div_pow, div_pow,
    show (20 : ℝ) / 21 * ((19 : ℝ) ^ n / 21 ^ n) - 1 / 20 =
      (400 * 19 ^ n - 21 ^ (n + 1)) / (20 * 21 ^ (n + 1)) from by
      rw [pow_succ]
      field_simp
      ring,
    div_le_div_iff₀ (by positivity) (by positivity)]
  nlinarith [h']

/-- Rational bracketing of the sample-interval decay factor
`exp (-1/10)`. -/
theorem exp_neg_tenth_bounds :
    (9 : ℝ) / 10 ≤ Real.exp (-(1 / 10)) ∧ Real.exp (-(1 / 10)) ≤ 10 / 11 := by
  constructor
  · have h := Real.add_one_le_exp (-(1 / 10) : ℝ)
    linarith
  · have h := Real.add_one_le_exp ((1 : ℝ) / 10)
    rw [Real.exp_neg]
    calc (Real.exp (1 / 10))⁻¹ ≤ ((11 : ℝ) / 10)⁻¹ :=
          inv_anti₀ (by norm_num) (by linarith)
      _ = 10 / 11 := by norm_num

/-- C9: the 3-tap IIR filter with b = [1,1,0] and
a = [1 + 2·RC/T, 1 − 2·RC/T, 0] for RC = 1, T = 1/10 (the bilinear
transform of the RC low-pass), driven by the unit step, stays within
absolute error 1/20 of the sampled analytic step response
`1 − exp (−(n·T)/RC)` at every index n < 50. -/
theorem C9_bilinear_rc_step_response (f : IIRFilter ℚ)
    (hf : IIRFilter.new 3 [1, 1, 0]
        [1 + 2 * 1 / (1 / 10), 1 - 2 * 1 / (1 / 10), 0] = .ok f)
    (n : ℕ) (hn : n < 50) :
    |((outSeq IIRFilter.processOne f (fun _ => 1) n : ℚ) : ℝ) -
        (1 - Real.exp (-((n : ℝ) * (1 / 10)) / 1))| ≤ 1 / 20 := by
  rw [show ([1 + 2 * 1 / (1 / 10), 1 - 2 * 1 / (1 / 10), 0] : List ℚ) = [21, -19, 0]
    from by norm_num] at hf
  obtain ⟨-, -, -, rfl⟩ := iir_new_eq_ok.mp hf
  rw [rc_closed_form n]
  push_cast
  rw [show -((n : ℝ) * (1 / 10)) / 1 = (n : ℝ) * (-(1 / 10)) from by ring,
    Real.exp_nat_mul]
  obtain ⟨hlo, hhi⟩ := exp_neg_tenth_bounds
  have hcn_hi : Real.exp (-(1 / 10)) ^ n ≤ ((10 : ℝ) / 11) ^ n :=
    pow_le_pow_left₀ (le_trans (by norm_num) hlo) hhi n
  have hcn_lo : ((9 : ℝ) / 10) ^ n ≤ Real.exp (-(1 / 10)) ^ n :=
    pow_le_pow_left₀ (by norm_num) hlo n
  have h1 := rc_upper_real n hn
  have h2 := rc_lower_real n hn
  rw [abs_le]
  constructor
  · linarith
  · linarith

/-- Witness for C9 at sample index 0: the filter outputs 1/21 and the
analytic response is 0. -/
theorem C9_witness :
    |((outSeq IIRFilter.processOne
          (⟨3, [0, 0, 0], [0, 0, 0], [1, 1, 0], [21, 19, 0]⟩ : IIRFilter ℚ)
          (fun _ => 1) 0 : ℚ) : ℝ) -
        (1 - Real.exp (-(((0 : ℕ) : ℝ) * (1 / 10)) / 1))| ≤ 1 / 20 :=
  C9_bilinear_rc_step_response ⟨3, [0, 0, 0], [0, 0, 0], [1, 1, 0], [21, 19, 0]⟩
    (by norm_num [IIRFilter.new, negTail, List.replicate]) 0 (by norm_num)

end Dsp
